import Mathlib

/-!
Verification development for the aerr error library.

The repository implements a composite error type (message, code, attribute
map, optional captured stack, optional cause) with a fluent builder
(Code / Message / With / StackTrace / Wrap / Err) and a chain aggregator
(the zerolog marshaller) that walks the cause chain and produces a single
flattened record: combined message, first non-empty code, merged attribute
map, and a deduplicated formatted stack.

The embedding below translates those source functions into pure Lean
functions.  Attribute maps (Go `map[string]any`) are modelled as
association lists with overwrite-on-assignment semantics; stack frames are
records of file, function and line; program counters are identified with
the frames they resolve to (no inlining expansion is modelled).  Pointer
aliasing of the builder's attribute map is modelled separately with an
explicit store, and the pointer-graph shape of cause chains (which can in
principle be cyclic in memory) is modelled separately with a heap of
indexed nodes.
-/

/-- Attribute values: Go `any` restricted to the shapes the library's tests
exercise.  Only distinguishability matters for the claims. -/
inductive Val where
  | vNil : Val
  | vStr : String → Val
  | vInt : Int → Val
  deriving DecidableEq, Repr

/-- A Go `map[string]any`, modelled as an association list.  Lookup returns
the unique binding (assignment overwrites in place, so keys stay unique). -/
abbrev AttrMap := List (String × Val)

/-- Go map assignment `m[k] = v`: overwrite the existing binding for `k`,
or append a fresh one. -/
def setA : AttrMap → String → Val → AttrMap
  | [], k, v => [(k, v)]
  | (k', w) :: rest, k, v =>
      if k' = k then (k, v) :: rest else (k', w) :: setA rest k v

/-- Go map lookup `m[k]`. -/
def getA (m : AttrMap) (k : String) : Option Val :=
  (m.find? (fun p => p.1 = k)).map (fun p => p.2)

/-- A resolved stack frame: the data `runtime.CallersFrames` yields for one
program counter.  A captured stack is a list of these. -/
structure Frame where
  file : String
  func : String
  line : Nat
  deriving DecidableEq, Repr

/-- Frame formatting shared by Traces and the zerolog marshaller:
`file + ".(" + function + "):" + line` built in the pooled buffer. -/
def formatFrame (f : Frame) : String :=
  f.file ++ ".(" ++ f.func ++ "):" ++ toString f.line

/-- captureStack from aerr.go: `runtime.Callers(3, pcs[:32])` skips the
three innermost frames (runtime.Callers, captureStack, Err or Wrap) and
stores at most `maxDepth = 32` program counters.  The ambient call stack is
passed in as the list of frames innermost first. -/
def captureStack (callers : List Frame) : List Frame :=
  ((callers.drop 3).take 32)

/-- The aerr builder struct (message, code, stack-capture flag, attribute
map).  Go zero values: `skipStack` starts `false`. -/
structure Builder where
  msg : String
  code : String
  skipStack : Bool
  attributes : AttrMap
  deriving DecidableEq, Repr

/-- Package-level Code: start building with an error code. -/
def Code (code : String) : Builder :=
  { msg := "", code := code, skipStack := false, attributes := [] }

/-- Package-level Message: start building with a message. -/
def Message (msg : String) : Builder :=
  { msg := msg, code := "", skipStack := false, attributes := [] }

/-- Builder method Code: set the error code. -/
def Builder.Code (b : Builder) (code : String) : Builder :=
  { b with code := code }

/-- Builder method Message: set the error message. -/
def Builder.Message (b : Builder) (msg : String) : Builder :=
  { b with msg := msg }

/-- Builder method With: add a key-value field to the attribute map. -/
def Builder.With (b : Builder) (k : String) (v : Val) : Builder :=
  { b with attributes := setA b.attributes k v }

/-- Builder method StackTrace: enable stack capture (`skipStack = false`). -/
def Builder.StackTrace (b : Builder) : Builder :=
  { b with skipStack := false }

/-- One link of an error chain as stored in memory: either a plain
non-composite error (identified by its `Error()` text) or an aerr node. -/
inductive EChain where
  | plain (text : String)
  | node (msg code : String) (attributes : AttrMap) (stack : List Frame)
      (skipStack : Bool) (cause : Option EChain)

/-- Stack of the outermost link, none for a plain error. -/
def EChain.stackOf : EChain → Option (List Frame)
  | .plain _ => none
  | .node _ _ _ stack _ _ => some stack

/-- Message stored on the outermost link. -/
def EChain.msgOf : EChain → String
  | .plain t => t
  | .node m _ _ _ _ _ => m

/-- Err from aerr.go: finalize the builder into a node carrying the given
cause; capture the current stack unless `skipStack` is set.  The ambient
call stack at the call site is passed as `callers`. -/
def Builder.Err (b : Builder) (cause : Option EChain) (callers : List Frame) : EChain :=
  .node b.msg b.code b.attributes
    (if b.skipStack then [] else captureStack callers)
    b.skipStack cause

/-- Wrap from the first revision of aerr.go (lines 121-163): nil cause
returns nil; a non-aerr cause gets a fresh node (capturing a stack unless
`skipStack`); an aerr cause has its code inherited when the builder's code
is empty, its message appended after a colon separator when non-empty, its
stack reused when non-empty (never capturing a new one in this branch), and
its attributes merged into the builder's map (overwriting on collision). -/
def Builder.Wrap (b : Builder) (err : Option EChain) (callers : List Frame) :
    Option EChain :=
  match err with
  | none => none
  | some (.plain t) =>
      some (.node b.msg b.code b.attributes
        (if b.skipStack then [] else captureStack callers)
        b.skipStack (some (.plain t)))
  | some (.node m2 c2 a2 s2 sk2 cause2) =>
      let code := if b.code = "" then c2 else b.code
      let msg := if m2 = "" then b.msg else b.msg ++ ": " ++ m2
      let stack := if s2.isEmpty then [] else s2
      let skip := if s2.isEmpty then b.skipStack else true
      let attrs :=
        if a2.isEmpty then b.attributes
        else a2.foldl (fun a p => setA a p.1 p.2) b.attributes
      some (.node msg code attrs stack skip (some (.node m2 c2 a2 s2 sk2 cause2)))

/-- Wrap from the second revision of aerr.go (lines 469-491): an aerr cause
with a non-empty stack has that stack reused by reference and capture is
skipped; otherwise a stack is captured unless `skipStack`.  No message,
code or field merging happens in this revision. -/
def Builder.WrapV2 (b : Builder) (err : Option EChain) (callers : List Frame) :
    Option EChain :=
  match err with
  | none => none
  | some (.plain t) =>
      some (.node b.msg b.code b.attributes
        (if b.skipStack then [] else captureStack callers)
        b.skipStack (some (.plain t)))
  | some (.node m2 c2 a2 s2 sk2 cause2) =>
      if s2.isEmpty then
        some (.node b.msg b.code b.attributes
          (if b.skipStack then [] else captureStack callers)
          b.skipStack (some (.node m2 c2 a2 s2 sk2 cause2)))
      else
        some (.node b.msg b.code b.attributes s2 true
          (some (.node m2 c2 a2 s2 sk2 cause2)))

/-!
Chain aggregator: MarshalZerologObject from the aerrzerolog package walks
the cause chain outermost first, collecting messages, the first non-empty
code, a merged attribute map and a deduplicated formatted stack.  Each
accumulator is embedded as its own recursion over the chain; the loop body
treats them independently, so this decomposition is faithful.
-/

/-- Stack deduplication loop state: the `seenFrames` set (as a list) and the
`stacktrace` output, fed one formatted frame string at a time. -/
def dedupGo : List String → List String → List String → List String × List String
  | seen, acc, [] => (seen, acc)
  | seen, acc, s :: rest =>
      if seen.contains s then dedupGo seen acc rest
      else dedupGo (s :: seen) (acc ++ [s]) rest

/-- Per-link stack processing in the marshaller: format every frame of the
link's stack and append each formatted string not seen before. -/
def addFrames (st : List String × List String) (frames : List Frame) :
    List String × List String :=
  dedupGo st.1 st.2 (frames.map formatFrame)

/-- Message collection of the marshaller walk: each composite link's
message when non-empty, and the terminal plain error's text
unconditionally. -/
def collectMsgs : EChain → List String
  | .plain t => [t]
  | .node m _ _ _ _ cause =>
      (if m = "" then [] else [m]) ++
        (match cause with
         | none => []
         | some c => collectMsgs c)

/-- Code resolution of the marshaller walk: keep the first non-empty code
encountered (`lastCode` stays once set). -/
def collectCode (lastCode : String) : EChain → String
  | .plain _ => lastCode
  | .node _ code _ _ _ cause =>
      let lastCode := if lastCode = "" then (if code = "" then lastCode else code)
        else lastCode
      match cause with
      | none => lastCode
      | some c => collectCode lastCode c

/-- Attribute merging of the marshaller walk: each link's fields are
assigned into the accumulated map in visitation order, later assignments
overwriting earlier ones. -/
def collectAttrs (acc : AttrMap) : EChain → AttrMap
  | .plain _ => acc
  | .node _ _ attrs _ _ cause =>
      let acc := if attrs.isEmpty then acc
        else attrs.foldl (fun a p => setA a p.1 p.2) acc
      match cause with
      | none => acc
      | some c => collectAttrs acc c

/-- Stack collection of the marshaller walk: every link with a non-empty
stack contributes its formatted frames through the dedup filter. -/
def collectStack (st : List String × List String) : EChain → List String × List String
  | .plain _ => st
  | .node _ _ _ stack _ cause =>
      let st := if stack.isEmpty then st else addFrames st stack
      match cause with
      | none => st
      | some c => collectStack st c

/-- Message joining loop of the marshaller: the first message verbatim,
every later one preceded by the separator. -/
def joinMsgs : List String → String
  | [] => ""
  | m :: rest => rest.foldl (fun acc s => acc ++ ": " ++ s) m

/-- Combined message: the collected messages joined with the separator. -/
def combinedMessage (c : EChain) : String :=
  joinMsgs (collectMsgs c)

/-- Aggregate code: empty string when no link carries a non-empty code. -/
def aggCode (c : EChain) : String :=
  collectCode "" c

/-- Aggregate merged attribute map. -/
def aggAttrs (c : EChain) : AttrMap :=
  collectAttrs [] c

/-- Aggregate deduplicated formatted stack. -/
def aggStack (c : EChain) : List String :=
  (collectStack ([], []) c).2

/-!
Specification-side descriptions of a chain, used to state the claims:
the per-link data in visitation order, and reference lookups.
-/

/-- Messages stored on the composite links, outermost first (the terminal
plain text excluded). -/
def compMsgs : EChain → List String
  | .plain _ => []
  | .node m _ _ _ _ cause =>
      m :: (match cause with
            | none => []
            | some c => compMsgs c)

/-- Codes stored on the composite links, outermost first. -/
def linkCodes : EChain → List String
  | .plain _ => []
  | .node _ code _ _ _ cause =>
      code :: (match cause with
               | none => []
               | some c => linkCodes c)

/-- Text of the terminal plain error, if the chain ends in one. -/
def terminalText : EChain → Option String
  | .plain t => some t
  | .node _ _ _ _ _ cause =>
      match cause with
      | none => none
      | some c => terminalText c

/-- Last binding of a key in one link's entry list (the binding Go map
assignment leaves in place when the entries are replayed in order). -/
def lastBind (k : String) : AttrMap → Option Val
  | [] => none
  | (k', v) :: rest =>
      match lastBind k rest with
      | some w => some w
      | none => if k' = k then some v else none

/-- Reference chain lookup with inner-wins precedence: the innermost link
binding the key determines its value. -/
def chainLookup (k : String) : EChain → Option Val
  | .plain _ => none
  | .node _ _ attrs _ _ cause =>
      match (match cause with
             | none => none
             | some c => chainLookup k c) with
      | some v => some v
      | none => lastBind k attrs

/-- Formatted frames of every link's stack, concatenated outermost link
first, each stack top to bottom, before deduplication. -/
def flatFrames : EChain → List String
  | .plain _ => []
  | .node _ _ _ stack _ cause =>
      stack.map formatFrame ++
        (match cause with
         | none => []
         | some c => flatFrames c)

/-- First-occurrence filter: the strings of the input not yet seen, each
kept at its first occurrence. -/
def freshOnly (seen : List String) : List String → List String
  | [] => []
  | s :: rest =>
      if seen.contains s then freshOnly seen rest
      else s :: freshOnly (s :: seen) rest

/-- The seen set after feeding a list through the dedup filter. -/
def seenAfter (seen : List String) : List String → List String
  | [] => seen
  | s :: rest =>
      if seen.contains s then seenAfter seen rest
      else seenAfter (s :: seen) rest

/-!
Reference-aliasing model.  In Go the builder's `attributes` field is a map
reference; `Err` and `Wrap` copy that reference into the new node, so the
finalized node and the builder share one mutable map.  The model makes the
heap of maps explicit: builders and nodes hold a map id, and `With`
mutates the store at the builder's id.
-/

/-- Heap of attribute maps: contents indexed by allocation id, plus the
next fresh id. -/
structure MapStore where
  contents : Nat → AttrMap
  next : Nat

/-- The empty store. -/
def MapStore.empty : MapStore :=
  { contents := fun _ => [], next := 0 }

/-- Builder whose attribute map lives in the store. -/
structure BuilderRef where
  msg : String
  code : String
  skipStack : Bool
  attrId : Nat
  deriving DecidableEq, Repr

/-- Finalized node whose attribute map lives in the store; the reference is
the one copied out of the builder. -/
structure NodeRef where
  msg : String
  code : String
  skipStack : Bool
  stack : List Frame
  attrId : Nat
  deriving DecidableEq, Repr

/-- Code constructor under the store model: `make(map[string]any)`
allocates a fresh empty map. -/
def codeStart (code : String) (s : MapStore) : BuilderRef × MapStore :=
  ({ msg := "", code := code, skipStack := false, attrId := s.next },
   { contents := fun i => if i = s.next then [] else s.contents i,
     next := s.next + 1 })

/-- Message constructor under the store model. -/
def messageStart (msg : String) (s : MapStore) : BuilderRef × MapStore :=
  ({ msg := msg, code := "", skipStack := false, attrId := s.next },
   { contents := fun i => if i = s.next then [] else s.contents i,
     next := s.next + 1 })

/-- With under the store model: `b.attributes[key] = value` mutates the
map the builder's reference points to. -/
def withRef (b : BuilderRef) (k : String) (v : Val) (s : MapStore) : MapStore :=
  { s with contents := fun i =>
      if i = b.attrId then setA (s.contents b.attrId) k v else s.contents i }

/-- Err under the store model: the node snapshots the builder's message,
code and flag by value, but copies the attribute map by reference
(`attributes: b.attributes`).  The store is unchanged. -/
def errRef (b : BuilderRef) (callers : List Frame) : NodeRef :=
  { msg := b.msg, code := b.code, skipStack := b.skipStack,
    stack := if b.skipStack then [] else captureStack callers,
    attrId := b.attrId }

/-- Wrap under the store model (first revision): nil cause returns nil; the
new node copies msg, code and skipStack by value and the attribute map by
reference (`attributes: b.attributes`).  A plain cause captures a stack
unless skipStack.  An aerr cause (given by its NodeRef) contributes its
code when the builder's is empty, its message after a colon separator,
its stack by reference when non-empty, and its attribute entries, which
are assigned into the shared map — mutating the builder's map in the
store. -/
def wrapRef (b : BuilderRef) (err : Option (NodeRef ⊕ String))
    (callers : List Frame) (s : MapStore) : Option NodeRef × MapStore :=
  match err with
  | none => (none, s)
  | some (Sum.inr _) =>
      (some { msg := b.msg, code := b.code, skipStack := b.skipStack,
              stack := if b.skipStack then [] else captureStack callers,
              attrId := b.attrId }, s)
  | some (Sum.inl aErr) =>
      let code := if b.code = "" then aErr.code else b.code
      let msg := if aErr.msg = "" then b.msg else b.msg ++ ": " ++ aErr.msg
      let stack := if aErr.stack.isEmpty then [] else aErr.stack
      let skip := if aErr.stack.isEmpty then b.skipStack else true
      let merged := (s.contents aErr.attrId).foldl (fun a p => setA a p.1 p.2)
        (s.contents b.attrId)
      let s' := if (s.contents aErr.attrId).isEmpty then s
        else { s with contents := fun i =>
          if i = b.attrId then merged else s.contents i }
      (some { msg := msg, code := code, skipStack := skip, stack := stack,
              attrId := b.attrId }, s')

/-- Observable attribute map of a finalized node: what its shared reference
points to in the current store. -/
def nodeAttrs (e : NodeRef) (s : MapStore) : AttrMap :=
  s.contents e.attrId

/-!
Pointer-graph model of cause chains for the termination claim.  A chain in
memory is a graph of nodes; the marshaller loop follows `cause` pointers
with no visited-set, so its behavior on a (hypothetical) cyclic graph is
observable only through a fuel-indexed unfolding of the loop.
-/

/-- One heap node: the aerr fields, with the cause either another heap node
(by id), a terminal plain error (by text), or nil. -/
structure HNode where
  msg : String
  code : String
  attrs : AttrMap
  stack : List Frame
  cause : Option (Nat ⊕ String)
  deriving Repr

/-- A heap of aerr nodes addressed by id. -/
abbrev EHeap := List HNode

/-- Accumulated state of the marshaller loop. -/
structure Agg where
  msgs : List String
  code : String
  attrs : AttrMap
  seen : List String
  stack : List String
  deriving Repr

/-- The initial (empty) loop state. -/
def Agg.init : Agg :=
  { msgs := [], code := "", attrs := [], seen := [], stack := [] }

/-- Loop body of MarshalZerologObject for one composite link: collect the
message when non-empty, keep the first non-empty code, merge the fields
map, and push the formatted stack frames through the dedup filter. -/
def stepNode (st : Agg) (n : HNode) : Agg :=
  let msgs := if n.msg = "" then st.msgs else st.msgs ++ [n.msg]
  let code := if st.code = "" then (if n.code = "" then st.code else n.code)
    else st.code
  let attrs := if n.attrs.isEmpty then st.attrs
    else n.attrs.foldl (fun a p => setA a p.1 p.2) st.attrs
  let stp := if n.stack.isEmpty then (st.seen, st.stack)
    else addFrames (st.seen, st.stack) n.stack
  { msgs := msgs, code := code, attrs := attrs, seen := stp.1, stack := stp.2 }

/-- The marshaller's chain walk over the heap, unfolded with fuel: one unit
of fuel is spent per composite link followed.  The source loop has no fuel
and no visited-set; `none` here means the loop has not finished within the
given number of iterations. -/
def walkFuel (h : EHeap) : Nat → Option (Nat ⊕ String) → Agg → Option Agg
  | _, none, st => some st
  | _, some (Sum.inr t), st => some { st with msgs := st.msgs ++ [t] }
  | 0, some (Sum.inl _), _ => none
  | fuel + 1, some (Sum.inl id), st =>
      match h.get? id with
      | none => some st
      | some n => walkFuel h fuel n.cause (stepNode st n)

/-- Divergence of the walk from a starting point: no amount of fuel
completes the loop. -/
def walkDiverges (h : EHeap) (cur : Option (Nat ⊕ String)) : Prop :=
  ∀ fuel st, walkFuel h fuel cur st = none

/-- A heap is forward-acyclic when every cause edge points to a strictly
smaller id.  Chains built through the API have this shape: a new node's
cause is always a pre-existing value. -/
def Acyclic (h : EHeap) : Prop :=
  ∀ i n j, h.get? i = some n → n.cause = some (Sum.inl j) → j < i

/-- The one-node heap whose node is its own cause: the minimal cyclic cause
graph. -/
def cyclicHeap : EHeap :=
  [{ msg := "m", code := "", attrs := [], stack := [],
     cause := some (Sum.inl 0) }]

/-- A two-node acyclic heap: node 1 (outer) wraps node 0 (inner). -/
def lineHeap : EHeap :=
  [{ msg := "inner", code := "", attrs := [], stack := [], cause := none },
   { msg := "outer", code := "", attrs := [], stack := [],
     cause := some (Sum.inl 0) }]

/-- Concrete chain for the message-combination witness: messages
"m1", "", "m3" over terminal text "boom". -/
def exChainMsg : EChain :=
  .node "m1" "" [] [] false
    (some (.node "" "C2" [] [] false
      (some (.node "m3" "C3" [] [] false
        (some (.plain "boom"))))))

/-- Concrete chain for the code witness: codes "", "C2", "C3" outermost
first. -/
def exChainCode : EChain :=
  .node "m1" "" [] [] false
    (some (.node "m2" "C2" [] [] false
      (some (.node "m3" "C3" [] [] false
        (some (.plain "boom"))))))

/-- Concrete chain for the stack-dedup witness: two links sharing one
reused stack, so the same frame is formatted twice. -/
def exChainStack : EChain :=
  .node "outer" "" [] [⟨"db.go", "Query", 42⟩] true
    (some (.node "inner" "" [] [⟨"db.go", "Query", 42⟩] false
      (some (.plain "boom"))))

/-- C5: wrapping a nil cause returns nil for every builder state, so call
sites can wrap unconditionally. -/
theorem wrap_nil_passthrough (b : Builder) (callers : List Frame) :
    b.Wrap none callers = none := by
  rfl

/-- C6: wrapping a composite cause that carries a non-empty stack reuses
that stack unchanged in the new link, in both revisions of Wrap, and the
result does not depend on the call stack at the wrap site (no new capture
happens). -/
theorem wrap_reuses_cause_stack (b : Builder) (m2 c2 : String) (a2 : AttrMap)
    (s2 : List Frame) (sk2 : Bool) (cause2 : Option EChain)
    (callers : List Frame) (h : s2 ≠ []) :
    ((b.Wrap (some (.node m2 c2 a2 s2 sk2 cause2)) callers).bind EChain.stackOf
        = some s2) ∧
    ((b.WrapV2 (some (.node m2 c2 a2 s2 sk2 cause2)) callers).bind EChain.stackOf
        = some s2) := by
  have hs : s2.isEmpty = false := by
    cases s2 with
    | nil => exact absurd rfl h
    | cons a l => rfl
  constructor
  · simp [Builder.Wrap, hs, EChain.stackOf]
  · simp [Builder.WrapV2, hs, EChain.stackOf]

/-- Witness for wrap_reuses_cause_stack at a concrete builder and cause. -/
theorem wrap_reuses_cause_stack_witness :
    ([⟨"db.go", "Query", 42⟩] : List Frame) ≠ [] ∧
    ((((Code "A").Wrap
          (some (.node "inner" "B" [] [⟨"db.go", "Query", 42⟩] false none))
          []).bind EChain.stackOf = some [⟨"db.go", "Query", 42⟩]) ∧
     (((Code "A").WrapV2
          (some (.node "inner" "B" [] [⟨"db.go", "Query", 42⟩] false none))
          []).bind EChain.stackOf = some [⟨"db.go", "Query", 42⟩])) :=
  ⟨by decide,
   wrap_reuses_cause_stack (Code "A") "inner" "B" [] [⟨"db.go", "Query", 42⟩]
     false none [] (by decide)⟩

/-- C4 counterexample: a builder started with Code, never configured for
stack capture, still captures a stack when finalized with Err, because the
zero value of skipStack is false.  The captured stack is the ambient call
stack minus the three skipped constructor frames. -/
theorem default_stack_capture_cex :
    ((Code "X").Err none
        [⟨"a", "f1", 1⟩, ⟨"b", "f2", 2⟩, ⟨"c", "f3", 3⟩, ⟨"d", "f4", 4⟩]).stackOf
      = some [⟨"d", "f4", 4⟩] ∧
    ([⟨"d", "f4", 4⟩] : List Frame) ≠ [] := by
  constructor
  · rfl
  · decide

/-- C4 amended: stack capture defaults to ON.  A builder freshly created by
Code or Message has skipStack false, so Err captures the call-site stack,
and so does Wrap when the cause is a plain non-composite error. -/
theorem default_stack_capture_on (code msg t : String) (cause : Option EChain)
    (callers : List Frame) :
    ((Code code).Err cause callers).stackOf = some (captureStack callers) ∧
    ((Message msg).Err cause callers).stackOf = some (captureStack callers) ∧
    ((Code code).Wrap (some (.plain t)) callers).bind EChain.stackOf
      = some (captureStack callers) := by
  refine ⟨rfl, rfl, ?_⟩
  simp [Builder.Wrap, Code, EChain.stackOf]

/-- C10: captureStack records at most 32 program counters: it skips the
three innermost frames and truncates the rest to the fixed buffer size, so
every frame past the 32nd (after the skip) is absent from the stored
stack. -/
theorem captureStack_limit (callers : List Frame) :
    (captureStack callers).length ≤ 32 ∧
    (∀ i, 32 ≤ i → (captureStack callers)[i]? = none) ∧
    (∀ i, i < 32 → (captureStack callers)[i]? = (callers.drop 3)[i]?) := by
  refine ⟨?_, ?_, ?_⟩
  · calc (captureStack callers).length
        = min 32 (callers.drop 3).length := List.length_take ..
      _ ≤ 32 := min_le_left _ _
  · intro i hi
    apply List.getElem?_eq_none
    calc ((callers.drop 3).take 32).length
        = min 32 (callers.drop 3).length := List.length_take ..
      _ ≤ 32 := min_le_left _ _
      _ ≤ i := hi
  · intro i hi
    exact List.getElem?_take_of_lt hi

/-- Witness for captureStack_limit at a concrete 36-frame call stack. -/
theorem captureStack_limit_witness :
    (captureStack (List.range 36 |>.map (fun i => ⟨"f", "g", i⟩))).length ≤ 32 ∧
    (32 ≤ 33 ∧
      (captureStack (List.range 36 |>.map (fun i => ⟨"f", "g", i⟩)))[33]?
        = none) :=
  ⟨(captureStack_limit _).1,
   ⟨by decide, (captureStack_limit _).2.1 33 (by decide)⟩⟩

/-- Feeding the tail of a message list through the separator loop is the
same as a right fold that puts the separator before the accumulated
suffix. -/
theorem foldl_sep_append (t : String) :
    ∀ (l : List String) (a : String),
      ((l ++ [t]).foldl (fun acc s => acc ++ ": " ++ s) a)
        = a ++ ": " ++ (l.foldr (fun m acc => m ++ ": " ++ acc) t)
  | [], a => by simp
  | s :: l, a => by
      simp only [List.cons_append, List.foldl_cons, List.foldr_cons]
      rw [foldl_sep_append t l (a ++ ": " ++ s)]
      simp [String.append_assoc]

/-- Joining a message list that ends in the terminal text equals the
claim's right-nested concatenation with the separator. -/
theorem joinMsgs_append_terminal (ms : List String) (t : String) :
    joinMsgs (ms ++ [t]) = ms.foldr (fun m acc => m ++ ": " ++ acc) t := by
  cases ms with
  | nil => simp [joinMsgs]
  | cons m ms' =>
      simp only [List.cons_append, joinMsgs, List.foldr_cons]
      exact foldl_sep_append t ms' m

/-- On a chain ending in a plain error, the marshaller collects exactly the
non-empty composite messages followed by the terminal text. -/
theorem collectMsgs_terminal :
    ∀ (c : EChain) (t : String), terminalText c = some t →
      collectMsgs c = (compMsgs c).filter (· ≠ "") ++ [t]
  | .plain t', t, h => by
      simp [terminalText] at h
      subst h
      simp [collectMsgs, compMsgs]
  | .node m cd a s sk none, t, h => by
      simp [terminalText] at h
  | .node m cd a s sk (some c'), t, h => by
      have ih := collectMsgs_terminal c' t (by simpa [terminalText] using h)
      by_cases hm : m = "" <;>
        simp [collectMsgs, compMsgs, hm, ih]

/-- C1: for a chain of composite links with messages m1 (outermost) through
mn (innermost) ending in a plain error with text t, the aggregate combined
message is m1 ++ ": " ++ m2 ++ ... ++ ": " ++ mn ++ ": " ++ t with every
empty link message skipped. -/
theorem aggregate_combined_message (c : EChain) (t : String)
    (h : terminalText c = some t) :
    combinedMessage c
      = ((compMsgs c).filter (· ≠ "")).foldr (fun m acc => m ++ ": " ++ acc) t := by
  rw [combinedMessage, collectMsgs_terminal c t h, joinMsgs_append_terminal]

/-- Witness for aggregate_combined_message on exChainMsg: the empty middle
message is skipped and the result is "m1: m3: boom". -/
theorem aggregate_combined_message_witness :
    terminalText exChainMsg = some "boom" ∧
    combinedMessage exChainMsg
      = ((compMsgs exChainMsg).filter (· ≠ "")).foldr
          (fun m acc => m ++ ": " ++ acc) "boom" :=
  ⟨by decide, aggregate_combined_message exChainMsg "boom" (by decide)⟩

/-- Code resolution unfolded: with an empty accumulator the walk returns
the first non-empty link code, and a non-empty accumulator is returned
unchanged. -/
theorem collectCode_eq :
    ∀ (c : EChain) (lc : String),
      collectCode lc c
        = if lc = "" then ((linkCodes c).filter (· ≠ "")).headD "" else lc
  | .plain _, lc => by
      by_cases hlc : lc = "" <;> simp [collectCode, linkCodes, hlc]
  | .node m cd a s sk none, lc => by
      by_cases hlc : lc = "" <;> by_cases hcd : cd = "" <;>
        simp [collectCode, linkCodes, hlc, hcd]
  | .node m cd a s sk (some c'), lc => by
      have ih := collectCode_eq c'
      by_cases hlc : lc = "" <;> by_cases hcd : cd = "" <;>
        simp [collectCode, linkCodes, hlc, hcd, ih]

/-- C3: the aggregate code is the first (outermost) non-empty code in the
chain, whatever codes inner links carry. -/
theorem aggregate_code_first_nonempty (c : EChain) (ck : String)
    (h : ((linkCodes c).filter (· ≠ "")).head? = some ck) :
    aggCode c = ck := by
  rw [aggCode, collectCode_eq c ""]
  simp only [if_pos rfl]
  cases hL : (linkCodes c).filter (· ≠ "") with
  | nil => rw [hL] at h; simp at h
  | cons a l =>
      rw [hL] at h
      simp at h
      simp [hL, h]

/-- Witness for aggregate_code_first_nonempty: the outermost non-empty code
"C2" wins over the inner "C3". -/
theorem aggregate_code_first_nonempty_witness :
    ((linkCodes exChainCode).filter (· ≠ "")).head? = some "C2" ∧
    aggCode exChainCode = "C2" :=
  ⟨by decide, aggregate_code_first_nonempty exChainCode "C2" (by decide)⟩

/-- Lookup on a cons cell. -/
theorem getA_cons (a : String) (b : Val) (m : AttrMap) (k : String) :
    getA ((a, b) :: m) k = if a = k then some b else getA m k := by
  by_cases h : a = k <;> simp [getA, List.find?, h]

/-- Lookup after a map assignment: the assigned key reads back the new
value, every other key is untouched. -/
theorem getA_setA :
    ∀ (m : AttrMap) (k : String) (v : Val) (k' : String),
      getA (setA m k v) k' = if k = k' then some v else getA m k'
  | [], k, v, k' => by
      by_cases h : k = k' <;> simp [setA, getA_cons, getA, h]
  | (a, b) :: rest, k, v, k' => by
      by_cases ha : a = k
      · subst ha
        by_cases h : a = k' <;> simp [setA, getA_cons, h]
      · by_cases h : a = k'
        · subst h
          have hk : ¬ k = a := fun hh => ha hh.symm
          simp [setA, ha, getA_cons, hk]
        · simp [setA, ha, getA_cons, h, getA_setA rest k v k']

/-- Lookup after replaying one link's entries into an accumulated map: the
link's last binding for the key wins, otherwise the accumulator's binding
survives. -/
theorem getA_foldl_setA :
    ∀ (l : AttrMap) (acc : AttrMap) (k : String),
      getA (l.foldl (fun a p => setA a p.1 p.2) acc) k
        = match lastBind k l with
          | some v => some v
          | none => getA acc k
  | [], acc, k => by simp [lastBind]
  | (k', v) :: rest, acc, k => by
      simp only [List.foldl_cons]
      rw [getA_foldl_setA rest (setA acc k' v) k]
      cases hlb : lastBind k rest with
      | some w => simp [lastBind, hlb]
      | none =>
          by_cases h : k' = k
          · subst h
            simp [lastBind, hlb, getA_setA]
          · have hk : ¬ k = k' := fun hh => h hh.symm
            simp [lastBind, hlb, getA_setA, h, hk]

/-- The empty-map guard on attribute merging is an optimization only:
replaying no entries leaves the accumulator unchanged. -/
theorem collectAttrs_fold_eq (attrs acc : AttrMap) :
    (if attrs.isEmpty then acc else attrs.foldl (fun a p => setA a p.1 p.2) acc)
      = attrs.foldl (fun a p => setA a p.1 p.2) acc := by
  cases attrs <;> simp

/-- Lookup in the merged attribute map of a chain walk started from an
arbitrary accumulator: the chain's innermost binding wins, else the
accumulator's. -/
theorem getA_collectAttrs :
    ∀ (c : EChain) (acc : AttrMap) (k : String),
      getA (collectAttrs acc c) k
        = match chainLookup k c with
          | some v => some v
          | none => getA acc k
  | .plain _, acc, k => by simp [collectAttrs, chainLookup]
  | .node m cd attrs s sk none, acc, k => by
      simp only [collectAttrs, chainLookup, collectAttrs_fold_eq]
      rw [getA_foldl_setA]
  | .node m cd attrs s sk (some c'), acc, k => by
      simp only [collectAttrs, chainLookup, collectAttrs_fold_eq]
      rw [getA_collectAttrs c' _ k]
      cases hcl : chainLookup k c' with
      | some w => rfl
      | none => rw [getA_foldl_setA]

/-- C2 counterexample: two links set key "k" to different values; the
merged map holds the inner link's value 2, not the outer link's value 1 —
a key already present is overwritten by inner links. -/
theorem attr_merge_outer_wins_cex :
    getA (aggAttrs (.node "outer" "" [("k", .vInt 1)] [] false
        (some (.node "inner" "" [("k", .vInt 2)] [] false none)))) "k"
      = some (Val.vInt 2) ∧
    Val.vInt 2 ≠ Val.vInt 1 := by
  constructor
  · rfl
  · decide

/-- C2 amended: attribute merging is inner-wins.  For every chain and key,
the aggregate's merged attribute map binds the key to the value set by the
innermost link that binds it (inner links overwrite keys already present
in the accumulated map). -/
theorem attr_merge_inner_wins (c : EChain) (k : String) :
    getA (aggAttrs c) k = chainLookup k c := by
  rw [aggAttrs, getA_collectAttrs c [] k]
  cases h : chainLookup k c <;> simp [getA]

/-- The dedup loop decomposed: the output is the input appended with the
fresh strings, and the seen set grows accordingly. -/
theorem dedupGo_eq :
    ∀ (L seen acc : List String),
      dedupGo seen acc L = (seenAfter seen L, acc ++ freshOnly seen L)
  | [], seen, acc => by simp [dedupGo, seenAfter, freshOnly]
  | s :: rest, seen, acc => by
      by_cases hc : s ∈ seen <;>
        simp [dedupGo, seenAfter, freshOnly, hc, dedupGo_eq rest]

/-- Fresh strings of a concatenation: the first part's fresh strings, then
the second part's relative to the enlarged seen set. -/
theorem freshOnly_append :
    ∀ (L1 L2 seen : List String),
      freshOnly seen (L1 ++ L2)
        = freshOnly seen L1 ++ freshOnly (seenAfter seen L1) L2
  | [], L2, seen => by simp [freshOnly, seenAfter]
  | s :: rest, L2, seen => by
      by_cases hc : s ∈ seen <;>
        simp [freshOnly, seenAfter, hc, freshOnly_append rest]

/-- The seen set after a concatenation. -/
theorem seenAfter_append :
    ∀ (L1 L2 seen : List String),
      seenAfter seen (L1 ++ L2) = seenAfter (seenAfter seen L1) L2
  | [], L2, seen => by simp [seenAfter]
  | s :: rest, L2, seen => by
      by_cases hc : s ∈ seen <;>
        simp [seenAfter, hc, seenAfter_append rest]

/-- One link's stack processing, with the empty-stack guard removed (an
empty stack contributes nothing either way). -/
theorem collectStack_step (seen acc : List String) (stack : List Frame) :
    (if stack.isEmpty then (seen, acc) else addFrames (seen, acc) stack)
      = (seenAfter seen (stack.map formatFrame),
         acc ++ freshOnly seen (stack.map formatFrame)) := by
  cases stack with
  | nil => simp [seenAfter, freshOnly]
  | cons f rest => simp [addFrames, dedupGo_eq]

/-- The stack walk over a chain equals the dedup filter applied to the
concatenation of all links' formatted frames. -/
theorem collectStack_eq :
    ∀ (c : EChain) (seen acc : List String),
      collectStack (seen, acc) c
        = (seenAfter seen (flatFrames c), acc ++ freshOnly seen (flatFrames c))
  | .plain _, seen, acc => by simp [collectStack, flatFrames, seenAfter, freshOnly]
  | .node m cd a stack sk none, seen, acc => by
      simp only [collectStack]
      rw [collectStack_step]
      simp [flatFrames]
  | .node m cd a stack sk (some c'), seen, acc => by
      simp only [collectStack]
      rw [collectStack_step, collectStack_eq c']
      simp [flatFrames, seenAfter_append, freshOnly_append]

/-- Membership in the fresh strings: exactly the input strings not already
seen. -/
theorem mem_freshOnly :
    ∀ (L seen : List String) (s : String),
      s ∈ freshOnly seen L ↔ s ∈ L ∧ s ∉ seen
  | [], seen, s => by simp [freshOnly]
  | u :: rest, seen, s => by
      by_cases hc : u ∈ seen
      · have hb : List.contains seen u = true := List.elem_iff.mpr hc
        rw [freshOnly, if_pos hb, mem_freshOnly rest]
        constructor
        · rintro ⟨h1, h2⟩
          exact ⟨List.mem_cons_of_mem u h1, h2⟩
        · rintro ⟨h1, h2⟩
          rcases List.mem_cons.mp h1 with h | h
          · exact absurd (h ▸ hc) h2
          · exact ⟨h, h2⟩
      · have hb : ¬ List.contains seen u = true := fun hh => hc (List.elem_iff.mp hh)
        rw [freshOnly, if_neg hb]
        rw [List.mem_cons, mem_freshOnly rest, List.mem_cons]
        by_cases hs : s = u
        · subst hs
          simp [hc]
        · simp [hs]

/-- The fresh strings are pairwise distinct: once emitted, a string is in
the seen set and is never emitted again. -/
theorem nodup_freshOnly :
    ∀ (L seen : List String), (freshOnly seen L).Nodup
  | [], seen => by simp [freshOnly]
  | u :: rest, seen => by
      by_cases hc : List.contains seen u = true
      · rw [freshOnly, if_pos hc]
        exact nodup_freshOnly rest seen
      · rw [freshOnly, if_neg hc]
        refine List.nodup_cons.mpr ⟨?_, nodup_freshOnly rest (u :: seen)⟩
        intro hmem
        exact ((mem_freshOnly rest (u :: seen) u).mp hmem).2 (List.mem_cons_self u seen)

/-- The fresh strings keep the input's relative order: they form a sublist
of the input. -/
theorem sublist_freshOnly :
    ∀ (L seen : List String), List.Sublist (freshOnly seen L) L
  | [], seen => by simp [freshOnly]
  | u :: rest, seen => by
      by_cases hc : List.contains seen u = true
      · rw [freshOnly, if_pos hc]
        exact (sublist_freshOnly rest seen).trans (List.sublist_cons_self u rest)
      · rw [freshOnly, if_neg hc]
        exact List.Sublist.cons₂ u (sublist_freshOnly rest (u :: seen))

/-- The aggregate stack is the first-occurrence filter of all formatted
frames. -/
theorem aggStack_eq (c : EChain) :
    aggStack c = freshOnly [] (flatFrames c) := by
  rw [aggStack, collectStack_eq c [] []]
  simp

/-- C9: the aggregate stack contains each formatted frame string of the
chain exactly once, with no duplicates, in first-occurrence order (outer
link to inner link, each stack top to bottom). -/
theorem aggregate_stack_dedup (c : EChain) :
    aggStack c = freshOnly [] (flatFrames c) ∧
    (aggStack c).Nodup ∧
    List.Sublist (aggStack c) (flatFrames c) ∧
    ∀ s ∈ flatFrames c, (aggStack c).count s = 1 := by
  refine ⟨aggStack_eq c, ?_, ?_, ?_⟩
  · rw [aggStack_eq c]
    exact nodup_freshOnly _ _
  · rw [aggStack_eq c]
    exact sublist_freshOnly _ _
  · intro s hs
    rw [aggStack_eq c]
    refine List.count_eq_one_of_mem (nodup_freshOnly _ _) ?_
    exact (mem_freshOnly _ _ s).mpr ⟨hs, List.not_mem_nil s⟩

/-- Witness for aggregate_stack_dedup: the shared frame appears twice in
the concatenation but exactly once in the aggregate stack. -/
theorem aggregate_stack_dedup_witness :
    "db.go.(Query):42" ∈ flatFrames exChainStack ∧
    (aggStack exChainStack).count "db.go.(Query):42" = 1 :=
  ⟨by decide, (aggregate_stack_dedup exChainStack).2.2.2 "db.go.(Query):42" (by decide)⟩

/-- C7 counterexample: finalize a Code builder with Err, then add an
attribute to the same builder with With.  The already-finalized link's
observable attribute map changes from empty to containing the new key,
because Err copied the map by reference. -/
theorem finalized_link_aliasing_cex :
    nodeAttrs (errRef (codeStart "C" MapStore.empty).1 [])
        ((codeStart "C" MapStore.empty).2) = [] ∧
    nodeAttrs (errRef (codeStart "C" MapStore.empty).1 [])
        (withRef (codeStart "C" MapStore.empty).1 "k" (.vInt 1)
          (codeStart "C" MapStore.empty).2)
      = [("k", Val.vInt 1)] := by
  exact ⟨rfl, rfl⟩

/-- C7 amended: a finalized link's message and code are value snapshots
computed at finalize time and never change, but its attribute map is
shared by reference with the builder — for Err-produced links and for
every link Wrap produces alike — so a later With on the builder is
observable through the finalized link: its attribute map gains exactly
that assignment. -/
theorem finalized_link_snapshot_and_sharing (b : BuilderRef)
    (err : Option (NodeRef ⊕ String)) (callers : List Frame) (k : String)
    (v : Val) (s s' : MapStore) :
    (errRef b callers).msg = b.msg ∧
    (errRef b callers).code = b.code ∧
    nodeAttrs (errRef b callers) (withRef b k v s')
      = setA (nodeAttrs (errRef b callers) s') k v ∧
    ∀ n, (wrapRef b err callers s).1 = some n →
      n.attrId = b.attrId ∧
      nodeAttrs n (withRef b k v s') = setA (nodeAttrs n s') k v := by
  refine ⟨rfl, rfl, ?_, ?_⟩
  · simp [nodeAttrs, withRef, errRef]
  · intro n hn
    cases err with
    | none => simp [wrapRef] at hn
    | some x =>
        cases x with
        | inr t =>
            simp only [wrapRef, Option.some.injEq] at hn
            subst hn
            exact ⟨rfl, by simp [nodeAttrs, withRef]⟩
        | inl aErr =>
            simp only [wrapRef, Option.some.injEq] at hn
            subst hn
            exact ⟨rfl, by simp [nodeAttrs, withRef]⟩

/-- Witness for finalized_link_snapshot_and_sharing at a Code-started
builder whose Wrap of a plain cause produced a concrete node: a subsequent
With on the builder is visible through that node's shared attribute
map. -/
theorem finalized_link_snapshot_and_sharing_witness :
    (wrapRef (codeStart "C" MapStore.empty).1 (some (Sum.inr "boom")) []
        (codeStart "C" MapStore.empty).2).1
      = some { msg := "", code := "C", skipStack := false, stack := [],
               attrId := 0 } ∧
    nodeAttrs
        { msg := "", code := "C", skipStack := false, stack := [], attrId := 0 }
        (withRef (codeStart "C" MapStore.empty).1 "k" (.vInt 1)
          (codeStart "C" MapStore.empty).2)
      = setA (nodeAttrs
          { msg := "", code := "C", skipStack := false, stack := [], attrId := 0 }
          (codeStart "C" MapStore.empty).2) "k" (.vInt 1) :=
  ⟨rfl,
   ((finalized_link_snapshot_and_sharing (codeStart "C" MapStore.empty).1
       (some (Sum.inr "boom")) [] "k" (.vInt 1)
       (codeStart "C" MapStore.empty).2 (codeStart "C" MapStore.empty).2).2.2.2
     { msg := "", code := "C", skipStack := false, stack := [], attrId := 0 }
     rfl).2⟩

/-- C8 counterexample: on the one-node cyclic heap the marshaller walk
never finishes — it has no visited-set, so no iteration bound completes
the loop. -/
theorem chain_walk_cycle_cex : walkDiverges cyclicHeap (some (Sum.inl 0)) := by
  intro fuel
  induction fuel with
  | zero => intro st; rfl
  | succ n ih =>
      intro st
      show walkFuel cyclicHeap (n + 1) (some (Sum.inl 0)) st = none
      simp only [walkFuel, cyclicHeap, List.get?]
      exact ih _

/-- Walk results are stable under extra fuel. -/
theorem walkFuel_mono (h : EHeap) :
    ∀ (f f' : Nat) (cur : Option (Nat ⊕ String)) (st r : Agg),
      walkFuel h f cur st = some r → f ≤ f' → walkFuel h f' cur st = some r
  | 0, f', none, st, r => by
      intro he _
      simpa [walkFuel] using he
  | 0, f', some (Sum.inr t), st, r => by
      intro he _
      simpa [walkFuel] using he
  | 0, f', some (Sum.inl id), st, r => by
      intro he _
      simp [walkFuel] at he
  | f + 1, f', none, st, r => by
      intro he _
      simpa [walkFuel] using he
  | f + 1, f', some (Sum.inr t), st, r => by
      intro he _
      simpa [walkFuel] using he
  | f + 1, f', some (Sum.inl id), st, r => by
      intro he hle
      cases f' with
      | zero => omega
      | succ f'' =>
          simp only [walkFuel] at he ⊢
          cases hg : h.get? id with
          | none => rw [hg] at he; exact he
          | some n =>
              rw [hg] at he
              exact walkFuel_mono h f f'' n.cause (stepNode st n) r he (by omega)

/-- C8 amended: the walk has no cycle guard, but on a forward-acyclic heap
(the only shape Wrap and Err can build, since a cause is always a
pre-existing node) the loop completes once the fuel exceeds the start
node's id. -/
theorem chain_walk_terminates_acyclic (hp : EHeap) (hac : Acyclic hp) :
    ∀ (i : Nat) (st : Agg), (walkFuel hp (i + 1) (some (Sum.inl i)) st).isSome := by
  intro i
  induction i using Nat.strong_induction_on with
  | _ i ih =>
      intro st
      simp only [walkFuel]
      cases hg : hp.get? i with
      | none => simp
      | some n =>
          show (walkFuel hp i n.cause (stepNode st n)).isSome = true
          cases hc : n.cause with
          | none => simp [walkFuel]
          | some x =>
              cases x with
              | inr t => simp [walkFuel]
              | inl j =>
                  have hj : j < i := hac i n j hg hc
                  have h1 := ih j hj (stepNode st n)
                  obtain ⟨r, hr⟩ := Option.isSome_iff_exists.mp h1
                  have h2 := walkFuel_mono hp (j + 1) i (some (Sum.inl j))
                    (stepNode st n) r hr (by omega)
                  simp [h2]

/-- Witness for chain_walk_terminates_acyclic on the two-node heap. -/
theorem chain_walk_terminates_acyclic_witness :
    Acyclic lineHeap ∧
    (walkFuel lineHeap 2 (some (Sum.inl 1)) Agg.init).isSome := by
  have hA : Acyclic lineHeap := by
    intro i n j hg hc
    cases i with
    | zero =>
        simp [lineHeap] at hg
        rw [← hg] at hc
        simp at hc
    | succ i' =>
        cases i' with
        | zero =>
            simp [lineHeap] at hg
            rw [← hg] at hc
            simp at hc
            omega
        | succ i'' => simp [lineHeap] at hg
  exact ⟨hA, chain_walk_terminates_acyclic lineHeap hA 1 Agg.init⟩
